import Mathlib

/-!
Verification development for the `bold-minds/id` ULID library.

Go strings are modelled as `List Char`, Go `time.Time` values as natural
numbers of nanoseconds since the Unix epoch, `time.Duration` as `Int`
nanoseconds, and the 128-bit ULID value as a `Nat` below `2 ^ 128`
(48-bit millisecond timestamp in the high bits, 80 bits of randomness in
the low bits).

The repository's own code (`src/gen.go`) is translated directly.  The
ULID codec and the monotonic entropy strategy live in the external
`oklog/ulid` dependency, which is not part of the repository sources;
those definitions are modelled from the specification (sections 3, 4.1
and 4.2) and are marked `Modelled from the spec:` below.
-/

namespace BoldMindsId

/-! ## Base-`b` digit strings (big-endian) -/

/-- Value of a big-endian list of base-`b` digits. -/
def digitsToNat (b : Nat) : List Nat → Nat
  | [] => 0
  | d :: ds => d * b ^ ds.length + digitsToNat b ds

/-- The `w` big-endian base-`b` digits of `n` (the value `n % b ^ w`). -/
def natToDigits (b : Nat) : Nat → Nat → List Nat
  | 0, _ => []
  | w + 1, n => natToDigits b w (n / b) ++ [n % b]

theorem natToDigits_length (b w n : Nat) : (natToDigits b w n).length = w := by
  induction w generalizing n with
  | zero => rfl
  | succ w ih => simp [natToDigits, ih]

theorem natToDigits_lt (b w n : Nat) (hb : 0 < b) :
    ∀ d ∈ natToDigits b w n, d < b := by
  induction w generalizing n with
  | zero => intro d hd; simp [natToDigits] at hd
  | succ w ih =>
    intro d hd
    simp only [natToDigits, List.mem_append, List.mem_singleton] at hd
    rcases hd with hd | hd
    · exact ih (n / b) d hd
    · subst hd; exact Nat.mod_lt _ hb

theorem digitsToNat_append_single (b : Nat) (ds : List Nat) (d : Nat) :
    digitsToNat b (ds ++ [d]) = digitsToNat b ds * b + d := by
  induction ds with
  | nil => simp [digitsToNat]
  | cons x xs ih =>
    simp [List.cons_append, digitsToNat, ih, List.length_append, pow_succ]
    ring

theorem mod_pow_succ_low (b w n : Nat) :
    n % b ^ (w + 1) = b * (n / b % b ^ w) + n % b := by
  rcases Nat.eq_zero_or_pos b with hb | hb
  · subst hb; simp [Nat.pow_succ]
  · have hbw : 0 < b ^ w := Nat.pos_pow_of_pos w hb
    have e3 : n / b / b ^ w = n / b ^ (w + 1) := by
      rw [Nat.div_div_eq_div_mul, ← pow_succ']
    have key : n = b * (n / b % b ^ w) + n % b + b ^ (w + 1) * (n / b ^ (w + 1)) := by
      conv_lhs => rw [← Nat.div_add_mod n b, ← Nat.div_add_mod (n / b) (b ^ w)]
      rw [← e3, pow_succ']
      ring
    have hlt : b * (n / b % b ^ w) + n % b < b ^ (w + 1) := by
      have h1 : n / b % b ^ w < b ^ w := Nat.mod_lt _ hbw
      have h2 : n % b < b := Nat.mod_lt _ hb
      calc b * (n / b % b ^ w) + n % b
          < b * (n / b % b ^ w) + b := by omega
        _ = b * (n / b % b ^ w + 1) := by ring
        _ ≤ b * b ^ w := Nat.mul_le_mul_left _ (by omega)
        _ = b ^ (w + 1) := (pow_succ' b w).symm
    calc n % b ^ (w + 1)
        = (b * (n / b % b ^ w) + n % b + b ^ (w + 1) * (n / b ^ (w + 1))) % b ^ (w + 1) := by
          rw [← key]
      _ = (b * (n / b % b ^ w) + n % b) % b ^ (w + 1) := by
          rw [Nat.add_mul_mod_self_left]
      _ = b * (n / b % b ^ w) + n % b := Nat.mod_eq_of_lt hlt

theorem digitsToNat_natToDigits (b w n : Nat) :
    digitsToNat b (natToDigits b w n) = n % b ^ w := by
  induction w generalizing n with
  | zero => simp [natToDigits, digitsToNat, Nat.mod_one]
  | succ w ih =>
    rw [natToDigits, digitsToNat_append_single, ih, mod_pow_succ_low]
    ring

theorem digitsToNat_lt (b : Nat) (ds : List Nat) (h : ∀ d ∈ ds, d < b) :
    digitsToNat b ds < b ^ ds.length := by
  induction ds with
  | nil => simp [digitsToNat]
  | cons d ds ih =>
    have hd : d < b := h d (by simp)
    have hds : digitsToNat b ds < b ^ ds.length := ih fun x hx => h x (by simp [hx])
    calc d * b ^ ds.length + digitsToNat b ds
        < d * b ^ ds.length + b ^ ds.length := by omega
      _ = (d + 1) * b ^ ds.length := by ring
      _ ≤ b * b ^ ds.length := Nat.mul_le_mul_right _ hd
      _ = b ^ (ds.length + 1) := by rw [pow_succ]; ring
      _ = b ^ (d :: ds).length := by simp

theorem natToDigits_digitsToNat (b : Nat) (hb : 0 < b) (ds : List Nat)
    (h : ∀ d ∈ ds, d < b) :
    natToDigits b ds.length (digitsToNat b ds) = ds := by
  induction ds using List.reverseRecOn with
  | nil => simp [natToDigits]
  | append_singleton xs d ih =>
    have hd : d < b := h d (by simp)
    have hxs : ∀ x ∈ xs, x < b := fun x hx => h x (by simp [hx])
    have hlen : (xs ++ [d]).length = xs.length + 1 := by simp
    rw [hlen, digitsToNat_append_single, natToDigits]
    have h1 : (digitsToNat b xs * b + d) / b = digitsToNat b xs := by
      rw [Nat.mul_comm, Nat.mul_add_div hb, Nat.div_eq_of_lt hd]; omega
    have h2 : (digitsToNat b xs * b + d) % b = d := by
      rw [Nat.mul_comm, Nat.mul_add_mod, Nat.mod_eq_of_lt hd]
    rw [h1, h2, ih hxs]

/-! ## Lexicographic order on equal-length digit strings -/

/-- Strict lexicographic order on digit lists. -/
def lexLtN : List Nat → List Nat → Bool
  | [], [] => false
  | [], _ :: _ => true
  | _ :: _, [] => false
  | d :: ds, e :: es => if d < e then true else if d = e then lexLtN ds es else false

/-- On equal-length digit strings with digits below `b`, lexicographic order
agrees with the order of the encoded values. -/
theorem lexLtN_iff_lt (b : Nat) (ds es : List Nat) (hlen : ds.length = es.length)
    (hds : ∀ d ∈ ds, d < b) (hes : ∀ e ∈ es, e < b) :
    lexLtN ds es = true ↔ digitsToNat b ds < digitsToNat b es := by
  induction ds generalizing es with
  | nil =>
    cases es with
    | nil => simp [lexLtN, digitsToNat]
    | cons e es => simp at hlen
  | cons d ds ih =>
    cases es with
    | nil => simp at hlen
    | cons e es =>
      have hlen' : ds.length = es.length := by simpa using hlen
      have hd : d < b := hds d (by simp)
      have he : e < b := hes e (by simp)
      have hdsv : digitsToNat b ds < b ^ ds.length :=
        digitsToNat_lt b ds fun x hx => hds x (by simp [hx])
      have hesv : digitsToNat b es < b ^ es.length :=
        digitsToNat_lt b es fun x hx => hes x (by simp [hx])
      simp only [digitsToNat, lexLtN]
      rcases Nat.lt_trichotomy d e with hde | hde | hde
      · simp only [hde, if_pos]
        have : d * b ^ ds.length + digitsToNat b ds < e * b ^ es.length + digitsToNat b es := by
          calc d * b ^ ds.length + digitsToNat b ds
              < d * b ^ ds.length + b ^ ds.length := by omega
            _ = (d + 1) * b ^ ds.length := by ring
            _ ≤ e * b ^ ds.length := Nat.mul_le_mul_right _ (by omega)
            _ = e * b ^ es.length := by rw [hlen']
            _ ≤ e * b ^ es.length + digitsToNat b es := Nat.le_add_right _ _
        simp [this]
      · subst hde
        rw [if_neg (Nat.lt_irrefl d), if_pos rfl,
          ih es hlen' (fun x hx => hds x (by simp [hx])) (fun x hx => hes x (by simp [hx])),
          hlen']
        omega
      · have h1 : ¬ d < e := by omega
        have h2 : d ≠ e := by omega
        rw [if_neg h1, if_neg h2]
        have hgt : e * b ^ es.length + digitsToNat b es < d * b ^ ds.length + digitsToNat b ds := by
          calc e * b ^ es.length + digitsToNat b es
              < e * b ^ es.length + b ^ es.length := by omega
            _ = (e + 1) * b ^ es.length := by ring
            _ ≤ d * b ^ es.length := Nat.mul_le_mul_right _ (by omega)
            _ = d * b ^ ds.length := by rw [hlen']
            _ ≤ d * b ^ ds.length + digitsToNat b ds := Nat.le_add_right _ _
        constructor
        · intro h; exact absurd h (by simp)
        · intro h; omega

/-- Strict lexicographic order on character lists, as Go compares strings
of bytes (all characters involved are ASCII). -/
def lexLt : List Char → List Char → Bool
  | [], [] => false
  | [], _ :: _ => true
  | _ :: _, [] => false
  | c :: cs, d :: ds => if c < d then true else if c = d then lexLt cs ds else false

/-! ## The Crockford base32 codec

Modelled from the spec: the codec lives in the external `oklog/ulid`
dependency, not in the repository sources.  Spec section 3: text form is a
26-character string over the Crockford base32 alphabet
`0123456789ABCDEFGHJKMNPQRSTVWXYZ` (no I, L, O, U), case-insensitive on
input, canonically uppercase on output; each character encodes 5 bits and
the top 2 bits of the first character must be zero.  Spec section 4.1:
`parse` fails if the length is not 26, if any character is outside the
alphabet after case normalization, or if the most-significant character
has more than its lowest 3 bits set. -/

/-- The Crockford base32 alphabet. -/
def B32 : List Char :=
  ['0', '1', '2', '3', '4', '5', '6', '7', '8', '9',
   'A', 'B', 'C', 'D', 'E', 'F', 'G', 'H', 'J', 'K',
   'M', 'N', 'P', 'Q', 'R', 'S', 'T', 'V', 'W', 'X', 'Y', 'Z']

/-- Position of a character in a list, starting at offset `i`. -/
def lookupIdx : List Char → Char → Nat → Option Nat
  | [], _, _ => none
  | d :: ds, c, i => if d = c then some i else lookupIdx ds c (i + 1)

/-- Modelled from the spec: the 5-bit value of a base32 character, after
case normalization; `none` for characters outside the alphabet. -/
def charValue (c : Char) : Option Nat := lookupIdx B32 c.toUpper 0

/-- Modelled from the spec: the (uppercase) base32 character of a 5-bit value. -/
def encodeChar (d : Nat) : Char := B32.getD d ' '

theorem lookupIdx_lt (l : List Char) (c : Char) (i v : Nat)
    (h : lookupIdx l c i = some v) : v < i + l.length := by
  induction l generalizing i with
  | nil => simp [lookupIdx] at h
  | cons d ds ih =>
    simp only [lookupIdx] at h
    by_cases hd : d = c
    · rw [if_pos hd] at h
      simp only [Option.some_inj] at h
      subst h; simp
    · rw [if_neg hd] at h
      have := ih (i + 1) h
      simp only [List.length_cons]
      omega

theorem charValue_lt (c : Char) (v : Nat) (h : charValue c = some v) : v < 32 := by
  have := lookupIdx_lt B32 c.toUpper 0 v h
  simpa [B32] using this

theorem charValue_encodeChar : ∀ d < 32, charValue (encodeChar d) = some d := by
  decide

theorem encodeChar_lt_iff :
    ∀ d < 32, ∀ e < 32, (encodeChar d < encodeChar e ↔ d < e) := by
  decide

theorem encodeChar_inj : ∀ d < 32, ∀ e < 32, encodeChar d = encodeChar e → d = e := by
  decide

/-- Modelled from the spec: canonical uppercase text form of a 128-bit
ULID value (26 base32 characters, codec operation `toText`). -/
def ulidEncode (n : Nat) : List Char := (natToDigits 32 26 n).map encodeChar

/-- Decode a character list to base32 digit values; `none` if any character
is outside the alphabet. -/
def decodeChars : List Char → Option (List Nat)
  | [] => some []
  | c :: cs =>
    match charValue c, decodeChars cs with
    | some d, some ds => some (d :: ds)
    | _, _ => none

/-- Modelled from the spec: codec operation `parse` (spec section 4.1).
Fails when the length is not 26, when a character falls outside the
base32 alphabet after case normalization, or when the most-significant
character has a value of 8 or more (the decoded value would then exceed
128 bits). -/
def ulidParse (s : List Char) : Option Nat :=
  if s.length ≠ 26 then none
  else
    match decodeChars s with
    | none => none
    | some [] => none
    | some (d :: ds) => if 8 ≤ d then none else some (digitsToNat 32 (d :: ds))

/-! ## Codec roundtrip lemmas -/

theorem natToDigits_peel_head (b w n : Nat) :
    natToDigits b (w + 1) n = (n / b ^ w % b) :: natToDigits b w (n % b ^ w) := by
  induction w generalizing n with
  | zero => simp [natToDigits, Nat.mod_one]
  | succ w ih =>
    have e1 : n / b / b ^ w = n / b ^ (w + 1) := by
      rw [Nat.div_div_eq_div_mul, ← pow_succ']
    have e2 : n % b ^ (w + 1) % b = n % b := by
      exact Nat.mod_mod_of_dvd n (dvd_pow_self b (Nat.succ_ne_zero w))
    have e3 : n % b ^ (w + 1) / b = n / b % b ^ w := by
      rw [pow_succ', Nat.mod_mul_right_div_self]
    calc natToDigits b (w + 1 + 1) n
        = natToDigits b (w + 1) (n / b) ++ [n % b] := rfl
      _ = (n / b / b ^ w % b) :: (natToDigits b w (n / b % b ^ w) ++ [n % b]) := by
          rw [ih]; rfl
      _ = (n / b ^ (w + 1) % b) :: natToDigits b (w + 1) (n % b ^ (w + 1)) := by
          rw [e1, natToDigits, e2, e3]

theorem decodeChars_map_encodeChar (ds : List Nat) (h : ∀ d ∈ ds, d < 32) :
    decodeChars (ds.map encodeChar) = some ds := by
  induction ds with
  | nil => rfl
  | cons d ds ih =>
    have hd : d < 32 := h d (by simp)
    simp only [List.map_cons, decodeChars, charValue_encodeChar d hd,
      ih fun x hx => h x (by simp [hx])]

theorem ulidEncode_length (n : Nat) : (ulidEncode n).length = 26 := by
  simp [ulidEncode, natToDigits_length]

theorem ulidParse_ulidEncode (n : Nat) (h : n < 2 ^ 128) :
    ulidParse (ulidEncode n) = some n := by
  have hd32 : ∀ d ∈ natToDigits 32 26 n, d < 32 := natToDigits_lt 32 26 n (by norm_num)
  have hpeel : natToDigits 32 26 n = (n / 32 ^ 25 % 32) :: natToDigits 32 25 (n % 32 ^ 25) :=
    natToDigits_peel_head 32 25 n
  have hlow : n / 32 ^ 25 < 8 := by
    have h128 : (2 : Nat) ^ 128 = 8 * 32 ^ 25 := by norm_num
    exact Nat.div_lt_of_lt_mul (by rw [Nat.mul_comm, ← h128]; exact h)
  have hmod : n / 32 ^ 25 % 32 = n / 32 ^ 25 := Nat.mod_eq_of_lt (by omega)
  rw [ulidParse, if_neg (by simp [ulidEncode_length]), ulidEncode,
    decodeChars_map_encodeChar _ hd32]
  rw [hpeel]
  simp only
  rw [if_neg (by rw [hmod]; omega), ← hpeel, digitsToNat_natToDigits]
  have : n % 32 ^ 26 = n := Nat.mod_eq_of_lt (by calc n < 2 ^ 128 := h
                                                    _ ≤ 32 ^ 26 := by norm_num)
  rw [this]

theorem ulidParse_lt (s : List Char) (n : Nat) (h : ulidParse s = some n) :
    n < 2 ^ 128 := by
  rw [ulidParse] at h
  by_cases hlen : s.length ≠ 26
  · rw [if_pos hlen] at h; cases h
  · rw [if_neg hlen] at h
    rcases hds : decodeChars s with _ | ds
    · rw [hds] at h; cases h
    · rw [hds] at h
      cases ds with
      | nil => cases h
      | cons d ds =>
        simp only at h
        by_cases hd8 : 8 ≤ d
        · rw [if_pos hd8] at h; cases h
        · rw [if_neg hd8] at h
          simp only [Option.some_inj] at h
          subst h
          have hlt : ∀ x ∈ (d :: ds), x < 32 := by
            intro x hx
            have : ∀ t r, decodeChars t = some r → ∀ x ∈ r, x < 32 := by
              intro t
              induction t with
              | nil => intro r hr x hx; simp [decodeChars] at hr; subst hr; simp at hx
              | cons c cs ih =>
                intro r hr x hx
                simp only [decodeChars] at hr
                rcases hc : charValue c with _ | v <;> rw [hc] at hr
                · cases hr
                · rcases hcs : decodeChars cs with _ | vs <;> rw [hcs] at hr
                  · cases hr
                  · simp only [Option.some_inj] at hr
                    subst hr
                    rcases List.mem_cons.mp hx with hx | hx
                    · subst hx; exact charValue_lt c x hc
                    · exact ih vs hcs x hx
            exact this s (d :: ds) hds x hx
          have hdlen : (d :: ds).length = 26 := by
            have : ∀ t r, decodeChars t = some r → r.length = t.length := by
              intro t
              induction t with
              | nil => intro r hr; simp [decodeChars] at hr; subst hr; rfl
              | cons c cs ih =>
                intro r hr
                simp only [decodeChars] at hr
                rcases hc : charValue c with _ | v <;> rw [hc] at hr
                · cases hr
                · rcases hcs : decodeChars cs with _ | vs <;> rw [hcs] at hr
                  · cases hr
                  · simp only [Option.some_inj] at hr
                    subst hr
                    simp [ih vs hcs]
            rw [this s (d :: ds) hds]
            omega
          calc digitsToNat 32 (d :: ds)
              = d * 32 ^ ds.length + digitsToNat 32 ds := rfl
            _ < 2 ^ 128 := by
                have hds25 : ds.length = 25 := by simp at hdlen; omega
                have h1 : digitsToNat 32 ds < 32 ^ ds.length :=
                  digitsToNat_lt 32 ds fun x hx => hlt x (by simp [hx])
                rw [hds25] at h1 ⊢
                have h2 : d ≤ 7 := by omega
                have h3 : d * 32 ^ 25 ≤ 7 * 32 ^ 25 := Nat.mul_le_mul_right _ h2
                have : (7 : Nat) * 32 ^ 25 + 32 ^ 25 = 2 ^ 128 := by norm_num
                omega

theorem lexLt_map_encodeChar (ds es : List Nat) (hds : ∀ d ∈ ds, d < 32)
    (hes : ∀ e ∈ es, e < 32) :
    lexLt (ds.map encodeChar) (es.map encodeChar) = lexLtN ds es := by
  induction ds generalizing es with
  | nil => cases es <;> rfl
  | cons d ds ih =>
    cases es with
    | nil => rfl
    | cons e es =>
      have hd : d < 32 := hds d (by simp)
      have he : e < 32 := hes e (by simp)
      simp only [List.map_cons, lexLt, lexLtN]
      by_cases hlt : d < e
      · rw [if_pos ((encodeChar_lt_iff d hd e he).mpr hlt), if_pos hlt]
      · rw [if_neg (fun hc => hlt ((encodeChar_lt_iff d hd e he).mp hc)), if_neg hlt]
        by_cases heq : d = e
        · subst heq
          rw [if_pos rfl, if_pos rfl]
          exact ih es (fun x hx => hds x (by simp [hx])) (fun x hx => hes x (by simp [hx]))
        · rw [if_neg (fun hc => heq (encodeChar_inj d hd e he hc)), if_neg heq]

/-- The canonical text encoding is strictly monotone: lexicographic order of
the 26-character forms agrees with numeric order of the 128-bit values. -/
theorem lexLt_ulidEncode (x y : Nat) (hx : x < 2 ^ 128) (hy : y < 2 ^ 128) :
    (lexLt (ulidEncode x) (ulidEncode y) = true ↔ x < y) := by
  have hdx : ∀ d ∈ natToDigits 32 26 x, d < 32 := natToDigits_lt 32 26 x (by norm_num)
  have hdy : ∀ d ∈ natToDigits 32 26 y, d < 32 := natToDigits_lt 32 26 y (by norm_num)
  rw [ulidEncode, ulidEncode, lexLt_map_encodeChar _ _ hdx hdy,
    lexLtN_iff_lt 32 _ _ (by rw [natToDigits_length, natToDigits_length]) hdx hdy,
    digitsToNat_natToDigits, digitsToNat_natToDigits]
  have ex : x % 32 ^ 26 = x := Nat.mod_eq_of_lt (lt_of_lt_of_le hx (by norm_num))
  have ey : y % 32 ^ 26 = y := Nat.mod_eq_of_lt (lt_of_lt_of_le hy (by norm_num))
  rw [ex, ey]

theorem ulidEncode_inj (x y : Nat) (hx : x < 2 ^ 128) (hy : y < 2 ^ 128)
    (h : ulidEncode x = ulidEncode y) : x = y := by
  have := ulidParse_ulidEncode x hx
  rw [h, ulidParse_ulidEncode y hy] at this
  simpa using this.symm

/-! ## Error kinds (spec section 7) -/

inductive IdError
  | formatError
  | rangeError
  | emptyInput
deriving DecidableEq

/-! ## Operations of `src/gen.go` -/

/-- `IsIdValid` (gen.go:156): a string is valid when `ulid.Parse` succeeds. -/
def IsIdValid (s : List Char) : Bool := (ulidParse s).isSome

/-- `ExtractTimestamp` (gen.go:182): parse, read the millisecond timestamp
field (the high 48 bits), guard it against `math.MaxInt64`, and build a
`time.Time` (here: nanoseconds, `ms * 1000000`). -/
def ExtractTimestamp (s : List Char) : Except IdError Nat :=
  match ulidParse s with
  | none => .error .formatError
  | some n =>
    let ms := n / 2 ^ 80
    if 2 ^ 63 - 1 < ms then .error .rangeError
    else .ok (ms * 1000000)

/-- Result of `ulid.Compare`, which is `bytes.Compare` on the two 16-byte
forms: the sign of the numeric comparison of the 128-bit values. -/
def cmpVal (x y : Nat) : Int := if x < y then -1 else if y < x then 1 else 0

/-- `Compare` (gen.go:224): parse both arguments (failing on the first
invalid one) and compare the parsed values. -/
def Compare (a b : List Char) : Except IdError Int :=
  match ulidParse a with
  | none => .error .formatError
  | some x =>
    match ulidParse b with
    | none => .error .formatError
    | some y => .ok (cmpVal x y)

/-- `ToBytes` (gen.go:259): parse, then return the 16-byte binary form
(big-endian base-256 digits of the 128-bit value). -/
def ToBytes (s : List Char) : Except IdError (List Nat) :=
  match ulidParse s with
  | none => .error .formatError
  | some n => .ok (natToDigits 256 16 n)

/-- `FromBytes` (gen.go:272): reinterpret 16 bytes as a ULID and render its
canonical text form. -/
def FromBytes (bs : List Nat) : List Char := ulidEncode (digitsToNat 256 bs)

/-! ## The monotonic generator

Modelled from the spec (sections 3 and 4.2): the default entropy strategy
is monotonic within a millisecond.  The generator state holds the
last-generated timestamp and randomness; minting at the same millisecond
increments the previous randomness as an unsigned 80-bit integer instead
of drawing fresh entropy.  (The spec's `OverflowError` case — all 80 bits
exhausted within one millisecond — is excluded by explicit bounds in the
theorems below.) -/

structure GenState where
  lastTs : Nat
  lastRand : Nat
deriving DecidableEq

/-- Modelled from the spec: mint one ULID value at millisecond `ms` with
fresh entropy `fresh`, threading the monotonic state. -/
def mint (fresh ms : Nat) (st : GenState) : Nat × GenState :=
  let r := if ms = st.lastTs then st.lastRand + 1 else fresh
  (ms * 2 ^ 80 + r, ⟨ms, r⟩)

/-- `count` successive mints at the fixed millisecond `ms`; `fresh i` is the
entropy the source would deliver for the i-th mint if the timestamp changed. -/
def genRunAux (fresh : Nat → Nat) (ms : Nat) : Nat → GenState → Nat → List Nat
  | _, _, 0 => []
  | i, st, rem + 1 =>
    (mint (fresh i) ms st).1 :: genRunAux fresh ms (i + 1) (mint (fresh i) ms st).2 rem

/-- `GenerateBatch` (gen.go:116) under the same-millisecond scenario of the
claims: every loop iteration reads the clock inside one millisecond `ms`,
so all `count` mints use that timestamp; repeated `Generate` /
`GenerateWithTime` calls inside one millisecond behave identically. -/
def GenerateBatch (fresh : Nat → Nat) (ms : Nat) (st : GenState) (count : Int) :
    List (List Char) :=
  if count ≤ 0 then [] else (genRunAux fresh ms 0 st count.toNat).map ulidEncode

/-- Two's-complement wrap of an integer into the signed 64-bit range, as
Go arithmetic on `int64` behaves on overflow. -/
def wrap64 (z : Int) : Int := (z + 2 ^ 63) % 2 ^ 64 - 2 ^ 63

/-- `duration := end.Sub(start)` (gen.go:139) for `start ≤ end`: Go's
`time.Time.Sub` saturates at `math.MaxInt64` nanoseconds when the true
difference does not fit in a `time.Duration`. -/
def goDuration (start stop : Nat) : Nat := min (stop - start) (2 ^ 63 - 1)

/-- The millisecond timestamp of the i-th `GenerateRange` iteration
(gen.go:145-146): `offset := time.Duration(int64(duration) * int64(i) /
int64(count))` is wrapping `int64` multiplication followed by Go's
truncating (toward zero) division, `timestamp := start.Add(offset)`, and
`ulid.Timestamp` truncates to whole milliseconds.  A negative timestamp —
possible only when the multiplication wraps, which the bounds of every
theorem below exclude, and on which Go's `ulid.MustNew` would panic with
an out-of-range timestamp — is clamped at zero by `Int.toNat`. -/
def goRangeMs (start dur n i : Nat) : Nat :=
  ((start : Int) + Int.tdiv (wrap64 ((dur : Int) * (i : Int))) (n : Int)).toNat
    / 1000000

/-- The iteration of `GenerateRange` (gen.go:143): the i-th mint uses the
millisecond timestamp `goRangeMs start dur n i`. -/
def genRangeAux (fresh : Nat → Nat) (start dur n : Nat) :
    Nat → GenState → Nat → List Nat
  | _, _, 0 => []
  | i, st, rem + 1 =>
    (mint (fresh i) (goRangeMs start dur n i) st).1 ::
      genRangeAux fresh start dur n (i + 1)
        (mint (fresh i) (goRangeMs start dur n i) st).2 rem

/-- `GenerateRange` (gen.go:133): empty for `count ≤ 0` or `end` before
`start`; otherwise `count` mints at evenly spread timestamps, with the
saturated duration of `end.Sub(start)`. -/
def GenerateRange (fresh : Nat → Nat) (st : GenState) (start stop : Nat)
    (count : Int) : List (List Char) :=
  if count ≤ 0 ∨ stop < start then []
  else
    (genRangeAux fresh start (goDuration start stop) count.toNat 0 st
      count.toNat).map ulidEncode

/-! ## Collection utilities of `src/gen.go` -/

/-- `Stats` (gen.go:293).  Times are nanoseconds; `timeSpan` is a
`time.Duration` and may be negative. -/
structure Stats where
  count : Nat
  timeSpan : Int
  firstID : List Char
  lastID : List Char
  firstTime : Nat
  lastTime : Nat
deriving DecidableEq

/-- The zero value of `Stats`. -/
def zeroStats : Stats := ⟨0, 0, [], [], 0, 0⟩

/-- Swap two positions of a list (Go slice element swap). -/
def lswap (l : List (List Char)) (i j : Nat) : List (List Char) :=
  (l.set i (l.getD j [])).set j (l.getD i [])

/-- Inner loop of the `sort.Slice` call in `AnalyzeIDs` (gen.go:327): walk
`j` downward, swapping `ids[j]` with `ids[j-1]` while `ts[j] < ts[j-1]`.
Crucially the comparator indexes the `timestamps` slice, which the sort
never reorders, so the keys consulted stay fixed while only `validIDs`
moves. -/
def ssbInner (ts : List Nat) (ids : List (List Char)) : Nat → List (List Char)
  | 0 => ids
  | j + 1 =>
    if ts.getD (j + 1) 0 < ts.getD j 0 then ssbInner ts (lswap ids (j + 1) j) j
    else ids

/-- Outer loop of the same sort: `i` from 1 to `n-1`. -/
def ssbOuter (ts : List Nat) (ids : List (List Char)) : Nat → Nat → List (List Char)
  | _, 0 => ids
  | i, rem + 1 => ssbOuter ts (ssbInner ts ids i) (i + 1) rem

/-- The `sort.Slice(validIDs, ...)` call of `AnalyzeIDs` (gen.go:327-329).
Go's `sort.Slice` runs pdqsort, which on slices shorter than 13 elements
is exactly this insertion sort; every concrete input evaluated through
this model below has 2 elements.  The comparator reads `timestamps[i]`
and `timestamps[j]` while only `validIDs` is swapped, so `timestamps`
acts as a fixed array of positional keys — the parallel-slice bug under
claim C2. -/
def sortSliceBroken (ts : List Nat) (ids : List (List Char)) : List (List Char) :=
  ssbOuter ts ids 1 (ids.length - 1)

/-- `AnalyzeIDs` (gen.go:303): empty input gives the zero `Stats`; entries
whose `ExtractTimestamp` fails are skipped; if none parse, error.  The
`timestamps` slice is never reordered, so `FirstTime`/`LastTime` are the
timestamps of the first and last *parse-order* entries, and `TimeSpan`
their (possibly negative) difference. -/
def AnalyzeIDs (ids : List (List Char)) : Except IdError Stats :=
  if ids.isEmpty then .ok zeroStats
  else
    let pairs := ids.filterMap fun s =>
      match ExtractTimestamp s with
      | .ok ts => some (s, ts)
      | .error _ => none
    let timestamps := pairs.map Prod.snd
    let validIDs := pairs.map Prod.fst
    if validIDs.isEmpty then .error .emptyInput
    else
      let sorted := sortSliceBroken timestamps validIDs
      let firstTime := timestamps.getD 0 0
      let lastTime := timestamps.getD (timestamps.length - 1) 0
      .ok ⟨validIDs.length, (lastTime : Int) - (firstTime : Int),
        sorted.getD 0 [], sorted.getD (sorted.length - 1) [],
        firstTime, lastTime⟩

/-- `FilterByTimeRange` (gen.go:345): keep, in input order, the entries
whose extracted timestamp lies in the closed interval; parse failures are
skipped. -/
def FilterByTimeRange (ids : List (List Char)) (start stop : Nat) :
    List (List Char) :=
  ids.foldl
    (fun result s =>
      match ExtractTimestamp s with
      | .ok ts =>
        if (ts = start ∨ start < ts) ∧ (ts = stop ∨ ts < stop) then result ++ [s]
        else result
      | .error _ => result)
    []

/-- The comparator closure of `SortChronologically` (gen.go:371-377):
`Compare(result[i], result[j]) < 0`, and `false` when comparison fails. -/
def compareLtB (a b : List Char) : Bool :=
  match Compare a b with
  | .ok c => c < 0
  | .error _ => false

/-- Insertion step of an insertion sort by `compareLtB`. -/
def insertAsc (x : List Char) : List (List Char) → List (List Char)
  | [] => [x]
  | y :: ys => if compareLtB x y then x :: y :: ys else y :: insertAsc x ys

/-- Insertion sort by `compareLtB`. -/
def sortAsc : List (List Char) → List (List Char)
  | [] => []
  | x :: xs => insertAsc x (sortAsc xs)

/-- `SortChronologically` (gen.go:362): lists of length at most 1 are
returned as-is; otherwise the copy is sorted with `sort.Slice` and the
comparator above.  `sort.Slice` is an unstable comparison sort (pdqsort);
here, unlike in `AnalyzeIDs`, the comparator reads the slice being
sorted, so it is a genuine sort.  When every entry is a valid ULID the
comparator is a total preorder whose ties are equal strings, so every
comparison sort produces the same list, modelled by this insertion sort;
on slices shorter than 13 elements pdqsort literally is this insertion
sort. -/
def SortChronologically (ids : List (List Char)) : List (List Char) :=
  if ids.length ≤ 1 then ids else sortAsc ids

/-- `SortChronologicallyReverse` (gen.go:383): the sorted copy, reversed
in place. -/
def SortChronologicallyReverse (ids : List (List Char)) : List (List Char) :=
  (SortChronologically ids).reverse

/-! ## Helper lemmas about `decodeChars` and `ulidParse` -/

theorem decodeChars_isSome (s : List Char) :
    (decodeChars s).isSome = true ↔ ∀ c ∈ s, (charValue c).isSome = true := by
  induction s with
  | nil => simp [decodeChars]
  | cons c cs ih =>
    simp only [decodeChars, List.mem_cons]
    rcases hc : charValue c with _ | v
    · constructor
      · intro h; cases h
      · intro h
        have := h c (Or.inl rfl)
        rw [hc] at this
        cases this
    · rcases hcs : decodeChars cs with _ | vs <;> rw [hcs] at ih
      · constructor
        · intro h; cases h
        · intro h
          have hcs' : ∀ x ∈ cs, (charValue x).isSome = true := fun x hx => h x (Or.inr hx)
          cases ih.mpr hcs'
      · constructor
        · intro _ x hx
          rcases hx with hx | hx
          · subst hx; rw [hc]; rfl
          · exact (ih.mp rfl) x hx
        · intro _; rfl

theorem decodeChars_cons_inv (c : Char) (cs : List Char) (r : List Nat)
    (h : decodeChars (c :: cs) = some r) :
    ∃ d ds, r = d :: ds ∧ charValue c = some d ∧ decodeChars cs = some ds := by
  simp only [decodeChars] at h
  rcases hc : charValue c with _ | d <;> rw [hc] at h
  · cases h
  · rcases hcs : decodeChars cs with _ | ds <;> rw [hcs] at h
    · cases h
    · refine ⟨d, ds, ?_, rfl, rfl⟩
      simpa using h.symm

/-! ## Claim C1 -/

/-- C1: `IsIdValid(s)` is true exactly when `s` has length 26, every
character belongs to the Crockford base32 alphabet up to case, and the
most-significant character decodes below 8 (only its lowest 3 bits set);
in particular the empty string, 25- and 27-character strings, and a
26-character string containing `U` are invalid, while a lowercase
well-formed string is valid. -/
theorem isIdValid_spec (s : List Char) :
    (IsIdValid s = true ↔
      s.length = 26 ∧ (∀ c ∈ s, (charValue c).isSome = true) ∧
        ∀ c cs, s = c :: cs → ∀ v, charValue c = some v → v < 8)
    ∧ IsIdValid [] = false
    ∧ IsIdValid ("0123456789abcdefghjkmnpqrs".toList) = true
    ∧ IsIdValid ("0123456789012345678901234".toList) = false
    ∧ IsIdValid ("012345678901234567890123456".toList) = false
    ∧ IsIdValid ("000000000000000000000000U0".toList) = false := by
  refine ⟨?_, by decide, by decide, by decide, by decide, by decide⟩
  constructor
  · intro h
    rw [IsIdValid] at h
    rcases hp : ulidParse s with _ | n <;> rw [hp] at h
    · cases h
    · rw [ulidParse] at hp
      by_cases hlen : s.length ≠ 26
      · rw [if_pos hlen] at hp; cases hp
      · rw [if_neg hlen] at hp
        push_neg at hlen
        rcases hds : decodeChars s with _ | ds <;> rw [hds] at hp
        · cases hp
        · cases ds with
          | nil => cases hp
          | cons d ds =>
            simp only at hp
            by_cases hd8 : 8 ≤ d
            · rw [if_pos hd8] at hp; cases hp
            · refine ⟨hlen, ?_, ?_⟩
              · rw [← decodeChars_isSome, hds]; rfl
              · intro c cs hs v hv
                subst hs
                obtain ⟨d', ds', hr, hc, _⟩ := decodeChars_cons_inv c cs _ hds
                rw [hc] at hv
                have hv' : v = d' := by simpa using hv.symm
                have hd' : d' = d := by
                  have := hr
                  injection this with h1 _
                  exact h1.symm
                omega
  · rintro ⟨hlen, hall, hhead⟩
    cases s with
    | nil => simp at hlen
    | cons c cs =>
      have hsome : (decodeChars (c :: cs)).isSome = true :=
        (decodeChars_isSome _).mpr hall
      rcases hds : decodeChars (c :: cs) with _ | r <;> rw [hds] at hsome
      · cases hsome
      · obtain ⟨d, ds, hr, hc, _⟩ := decodeChars_cons_inv c cs r hds
        subst hr
        have hd8 : d < 8 := hhead c cs rfl d hc
        rw [IsIdValid, ulidParse, if_neg (by simp [hlen]), hds]
        simp only
        rw [if_neg (by omega)]
        rfl

/-- Concrete instance of C1: the right-hand side of the characterization,
obtained from a validity check on a lowercase well-formed string. -/
theorem isIdValid_spec_witness :
    ("0123456789abcdefghjkmnpqrs".toList).length = 26 :=
  ((isIdValid_spec ("0123456789abcdefghjkmnpqrs".toList)).1.mp (by decide)).1

/-! ## Shared facts about `ExtractTimestamp` -/

theorem extractTimestamp_err (s : List Char) (h : ulidParse s = none) :
    ExtractTimestamp s = .error .formatError := by
  rw [ExtractTimestamp, h]

theorem extractTimestamp_ok (s : List Char) (n : Nat) (h : ulidParse s = some n) :
    ExtractTimestamp s = .ok (n / 2 ^ 80 * 1000000) := by
  have hms : n / 2 ^ 80 < 2 ^ 48 := by
    have hn := ulidParse_lt s n h
    have h2 : n < 2 ^ 48 * 2 ^ 80 := by
      calc n < 2 ^ 128 := hn
        _ = 2 ^ 48 * 2 ^ 80 := by norm_num
    exact Nat.div_lt_of_lt_mul (by rw [Nat.mul_comm] at h2; exact h2)
  have hguard : ¬ (2 ^ 63 - 1 < n / 2 ^ 80) := by
    have : (2 : Nat) ^ 48 ≤ 2 ^ 63 - 1 := by norm_num
    omega
  rw [ExtractTimestamp, h]
  simp only
  rw [if_neg hguard]

/-! ## Claim C10 -/

/-- C10: for inputs that parse, `ExtractTimestamp` returns the decoded
48-bit millisecond timestamp and its `timestamp too large` guard (the
`RangeError` branch) is unreachable, because the timestamp field is below
`2^48 ≤ MaxInt64`; `ExtractTimestamp` fails exactly when parsing fails. -/
theorem extractTimestamp_total (s : List Char) :
    (∀ n, ulidParse s = some n → ExtractTimestamp s = .ok (n / 2 ^ 80 * 1000000))
    ∧ ExtractTimestamp s ≠ .error .rangeError
    ∧ (ExtractTimestamp s = .error .formatError ↔ ulidParse s = none) := by
  rcases hp : ulidParse s with _ | n
  · have he : ExtractTimestamp s = .error .formatError := extractTimestamp_err s hp
    refine ⟨?_, ?_, ?_⟩
    · intro m hm; cases hm
    · rw [he]
      intro h
      have h2 : IdError.formatError = IdError.rangeError := by injection h
      cases h2
    · simp [he]
  · have hok : ExtractTimestamp s = .ok (n / 2 ^ 80 * 1000000) :=
      extractTimestamp_ok s n hp
    refine ⟨?_, ?_, ?_⟩
    · intro m hm
      have hmn : n = m := by simpa using hm
      subst hmn
      exact hok
    · rw [hok]; intro h; cases h
    · rw [hok]
      constructor
      · intro h; cases h
      · intro h; cases h

/-- Concrete instance of C10: extracting the timestamp of the all-zero ULID. -/
theorem extractTimestamp_total_witness : ExtractTimestamp (ulidEncode 0) = .ok 0 := by
  have h := (extractTimestamp_total (ulidEncode 0)).1 0 (ulidParse_ulidEncode 0 (by norm_num))
  simpa using h

/-! ## Claim C6 -/

/-- C6: any 16-byte sequence is a structurally valid ULID: `FromBytes`
yields a valid 26-character text form, and `ToBytes` recovers exactly the
input bytes with no error. -/
theorem fromBytes_toBytes (bs : List Nat) (hlen : bs.length = 16)
    (hb : ∀ x ∈ bs, x < 256) :
    (FromBytes bs).length = 26 ∧ IsIdValid (FromBytes bs) = true ∧
      ToBytes (FromBytes bs) = .ok bs := by
  have hval : digitsToNat 256 bs < 2 ^ 128 := by
    have h1 := digitsToNat_lt 256 bs hb
    rw [hlen] at h1
    calc digitsToNat 256 bs < 256 ^ 16 := h1
      _ = 2 ^ 128 := by norm_num
  refine ⟨ulidEncode_length _, ?_, ?_⟩
  · rw [IsIdValid, FromBytes, ulidParse_ulidEncode _ hval]; rfl
  · have h2 : natToDigits 256 16 (digitsToNat 256 bs) = bs := by
      rw [← hlen]
      exact natToDigits_digitsToNat 256 (by norm_num) bs hb
    rw [ToBytes, FromBytes, ulidParse_ulidEncode _ hval]
    show Except.ok (natToDigits 256 16 (digitsToNat 256 bs)) = Except.ok bs
    rw [h2]

/-- Concrete instance of C6 on the byte sequence `0, 1, ..., 15`. -/
theorem fromBytes_toBytes_witness :
    (List.range 16).length = 16 ∧ (∀ x ∈ List.range 16, x < 256) ∧
      ToBytes (FromBytes (List.range 16)) = .ok (List.range 16) :=
  ⟨by decide, by decide,
    (fromBytes_toBytes (List.range 16) (by decide) (by decide)).2.2⟩

/-! ## Claim C4 -/

/-- C4: `FilterByTimeRange` returns exactly the subsequence, in original
order, of entries that parse and whose timestamp lies in the closed
interval `[start, stop]`; entries that fail to parse are dropped and no
error is possible. -/
theorem filterByTimeRange_spec (ids : List (List Char)) (start stop : Nat) :
    FilterByTimeRange ids start stop =
      ids.filter fun s =>
        match ExtractTimestamp s with
        | .ok ts => decide (start ≤ ts ∧ ts ≤ stop)
        | .error _ => false := by
  have key : ∀ (l acc : List (List Char)),
      l.foldl
        (fun result s =>
          match ExtractTimestamp s with
          | .ok ts =>
            if (ts = start ∨ start < ts) ∧ (ts = stop ∨ ts < stop) then result ++ [s]
            else result
          | .error _ => result)
        acc
      = acc ++ l.filter fun s =>
          match ExtractTimestamp s with
          | .ok ts => decide (start ≤ ts ∧ ts ≤ stop)
          | .error _ => false := by
    intro l
    induction l with
    | nil => intro acc; simp
    | cons x xs ih =>
      intro acc
      simp only [List.foldl_cons, List.filter_cons]
      rcases hx : ExtractTimestamp x with e | ts
      · simp only [hx]
        rw [ih]
        simp
      · simp only [hx]
        by_cases hcond : (ts = start ∨ start < ts) ∧ (ts = stop ∨ ts < stop)
        · rw [if_pos hcond, ih]
          have hdec : decide (start ≤ ts ∧ ts ≤ stop) = true := by
            apply decide_eq_true
            omega
          simp [hdec]
        · rw [if_neg hcond, ih]
          have hdec : decide (start ≤ ts ∧ ts ≤ stop) = false := by
            apply decide_eq_false
            omega
          simp [hdec]
  rw [FilterByTimeRange, key]
  simp

/-! ## Claim C2 (bug exhibit) -/

/-- C2 fails on the code.  With two valid ULIDs at milliseconds 2 and 1,
in that input order, `AnalyzeIDs` reports `FirstTime` = 2ms and
`LastTime` = 1ms — the timestamps of the first and last entries in input
order, not the minimum and maximum — and a negative `TimeSpan` of −1ms.
The `sort.Slice` call swaps `validIDs` while its comparator keeps reading
the never-reordered `timestamps` slice, so `timestamps` is left unsorted
(here `FirstID`/`LastID` happen to land on the min/max entries, but their
timestamps contradict `FirstTime`/`LastTime`). -/
theorem analyzeIDs_bug :
    IsIdValid (ulidEncode (2 * 2 ^ 80)) = true
    ∧ IsIdValid (ulidEncode (2 ^ 80)) = true
    ∧ ExtractTimestamp (ulidEncode (2 * 2 ^ 80)) = .ok 2000000
    ∧ ExtractTimestamp (ulidEncode (2 ^ 80)) = .ok 1000000
    ∧ AnalyzeIDs [ulidEncode (2 * 2 ^ 80), ulidEncode (2 ^ 80)] =
        .ok ⟨2, -1000000, ulidEncode (2 ^ 80), ulidEncode (2 * 2 ^ 80),
          2000000, 1000000⟩ :=
  ⟨rfl, rfl, rfl, rfl, rfl⟩

/-! ## Claim C7 -/

theorem parsePair_eq (s : List Char) :
    (match ExtractTimestamp s with
      | Except.ok ts => some (s, ts)
      | Except.error _ => (none : Option (List Char × Nat)))
    = match ulidParse s with
      | some n => some (s, n / 2 ^ 80 * 1000000)
      | none => none := by
  rcases hp : ulidParse s with _ | n
  · rw [extractTimestamp_err s hp]
  · rw [extractTimestamp_ok s n hp]

theorem filterMap_parse_length (l : List (List Char)) :
    (l.filterMap fun s =>
      match ulidParse s with
      | some n => some (s, n / 2 ^ 80 * 1000000)
      | none => none).length
    = (l.filter fun s => (ulidParse s).isSome).length := by
  induction l with
  | nil => rfl
  | cons x xs ih =>
    rw [List.filterMap_cons, List.filter_cons]
    rcases hp : ulidParse x with _ | n
    · simp only [hp]
      simpa using ih
    · simp only [hp]
      simpa using ih

theorem analyzeIDs_none_iff (ids : List (List Char)) (hne : ids ≠ []) :
    (AnalyzeIDs ids).toOption = none ↔ ∀ s ∈ ids, ulidParse s = none := by
  have hE : ids.isEmpty = false := by
    cases ids with
    | nil => exact absurd rfl hne
    | cons a l => rfl
  rw [AnalyzeIDs, if_neg (by rw [hE]; simp)]
  simp only [parsePair_eq]
  by_cases hP : (ids.filterMap fun s =>
      match ulidParse s with
      | some n => some (s, n / 2 ^ 80 * 1000000)
      | none => none) = []
  · rw [hP]
    simp only [List.map_nil, List.isEmpty_nil, if_pos]
    constructor
    · intro _ s hs
      have hnone := (List.filterMap_eq_nil_iff.mp hP) s hs
      rcases hp : ulidParse s with _ | n
      · rfl
      · rw [hp] at hnone; cases hnone
    · intro _; rfl
  · rw [if_neg ?hcond]
    case hcond =>
      intro hco
      apply hP
      have : (ids.filterMap fun s =>
          match ulidParse s with
          | some n => some (s, n / 2 ^ 80 * 1000000)
          | none => none).map Prod.fst = [] := by
        rwa [List.isEmpty_iff] at hco
      exact List.map_eq_nil_iff.mp this
    constructor
    · intro h; cases h
    · intro hall
      exfalso
      apply hP
      apply List.filterMap_eq_nil_iff.mpr
      intro s hs
      rw [hall s hs]

/-- C7: `AnalyzeIDs` skips entries that fail to parse without failing the
whole call (its `Count` is the number of parseable entries), it errors
exactly when the input is non-empty and no entry parses, and the empty
input yields the zero `Stats` with no error. -/
theorem analyzeIDs_error_policy (ids : List (List Char)) :
    AnalyzeIDs [] = .ok zeroStats
    ∧ ((AnalyzeIDs ids).toOption = none ↔
        ids ≠ [] ∧ ∀ s ∈ ids, ulidParse s = none)
    ∧ ∀ st, AnalyzeIDs ids = .ok st →
        st.count = (ids.filter fun s => (ulidParse s).isSome).length := by
  by_cases hids : ids = []
  · subst hids
    refine ⟨rfl, ?_, ?_⟩
    · constructor
      · intro h; cases h
      · rintro ⟨hne, _⟩; exact absurd rfl hne
    · intro st hst
      have h2 : Except.ok zeroStats = Except.ok st :=
        (rfl : AnalyzeIDs [] = Except.ok zeroStats).symm.trans hst
      have h3 : zeroStats = st := by injection h2
      rw [← h3]
      rfl
  · refine ⟨rfl, ?_, ?_⟩
    · rw [analyzeIDs_none_iff ids hids]
      constructor
      · intro h; exact ⟨hids, h⟩
      · rintro ⟨_, h⟩; exact h
    · intro st hst
      have hE : ids.isEmpty = false := by
        cases ids with
        | nil => exact absurd rfl hids
        | cons a l => rfl
      rw [AnalyzeIDs, if_neg (by rw [hE]; simp)] at hst
      simp only [parsePair_eq] at hst
      by_cases hP : ((ids.filterMap fun s =>
          match ulidParse s with
          | some n => some (s, n / 2 ^ 80 * 1000000)
          | none => none).map Prod.fst).isEmpty = true
      · rw [if_pos hP] at hst; cases hst
      · rw [if_neg hP] at hst
        have h2 : st.count = ((ids.filterMap fun s =>
            match ulidParse s with
            | some n => some (s, n / 2 ^ 80 * 1000000)
            | none => none).map Prod.fst).length := by
          rw [← (by injection hst : _ = st)]
        rw [h2, List.length_map, filterMap_parse_length]

/-- Concrete instance of C7: a list holding one valid ULID and one
malformed entry is analyzed with `Count` 1, skipping the bad entry. -/
theorem analyzeIDs_error_policy_witness :
    ([ulidEncode 0, ['U']].filter fun s => (ulidParse s).isSome).length =
      Stats.count ⟨1, 0, ulidEncode 0, ulidEncode 0, 0, 0⟩ :=
  ((analyzeIDs_error_policy [ulidEncode 0, ['U']]).2.2
    ⟨1, 0, ulidEncode 0, ulidEncode 0, 0, 0⟩ rfl).symm

/-! ## Claim C3 -/

theorem compare_ok (a b : List Char) (x y : Nat) (ha : ulidParse a = some x)
    (hb : ulidParse b = some y) : Compare a b = .ok (cmpVal x y) := by
  rw [Compare, ha]
  simp only
  rw [hb]

/-- C3: `Compare` errors exactly when one of its arguments is not a valid
ULID; on valid inputs it returns −1, 0 or 1, whose sign agrees with the
lexicographic comparison of the canonical uppercase text forms; and two
ULIDs minted in succession by the monotonic generator at milliseconds
`ms1 ≤ ms2` compare at most 0. -/
theorem compare_spec :
    (∀ a b, (∃ e, Compare a b = .error e) ↔
      (IsIdValid a = false ∨ IsIdValid b = false))
    ∧ (∀ a b x y, ulidParse a = some x → ulidParse b = some y →
        Compare a b = .ok (cmpVal x y)
        ∧ (cmpVal x y = -1 ∨ cmpVal x y = 0 ∨ cmpVal x y = 1)
        ∧ (cmpVal x y < 0 ↔ lexLt (ulidEncode x) (ulidEncode y) = true)
        ∧ (cmpVal x y = 0 ↔ ulidEncode x = ulidEncode y)
        ∧ (0 < cmpVal x y ↔ lexLt (ulidEncode y) (ulidEncode x) = true))
    ∧ (∀ f1 f2 ms1 ms2 st, ms1 ≤ ms2 → ms2 < 2 ^ 48 →
        st.lastRand + 2 < 2 ^ 80 → f1 + 2 < 2 ^ 80 → f2 < 2 ^ 80 →
        ∃ c, Compare (ulidEncode (mint f1 ms1 st).1)
            (ulidEncode (mint f2 ms2 (mint f1 ms1 st).2).1) = .ok c ∧ c ≤ 0) := by
  have hcmp : ∀ a b x y, ulidParse a = some x → ulidParse b = some y →
      Compare a b = .ok (cmpVal x y) := compare_ok
  refine ⟨?_, ?_, ?_⟩
  · intro a b
    constructor
    · rintro ⟨e, he⟩
      rcases ha : ulidParse a with _ | x
      · left; rw [IsIdValid, ha]; rfl
      · rcases hb : ulidParse b with _ | y
        · right; rw [IsIdValid, hb]; rfl
        · rw [hcmp a b x y ha hb] at he; cases he
    · intro h
      rcases ha : ulidParse a with _ | x
      · refine ⟨.formatError, ?_⟩
        rw [Compare, ha]
      · rcases hb : ulidParse b with _ | y
        · refine ⟨.formatError, ?_⟩
          rw [Compare, ha]
          simp only
          rw [hb]
        · exfalso
          rcases h with h | h
          · rw [IsIdValid, ha] at h; cases h
          · rw [IsIdValid, hb] at h; cases h
  · intro a b x y ha hb
    have hx : x < 2 ^ 128 := ulidParse_lt a x ha
    have hy : y < 2 ^ 128 := ulidParse_lt b y hb
    refine ⟨hcmp a b x y ha hb, ?_, ?_, ?_, ?_⟩
    · rw [cmpVal]
      rcases Nat.lt_trichotomy x y with h | h | h
      · rw [if_pos h]; left; rfl
      · rw [if_neg (by omega), if_neg (by omega)]; right; left; rfl
      · rw [if_neg (by omega), if_pos h]; right; right; rfl
    · rw [lexLt_ulidEncode x y hx hy, cmpVal]
      rcases Nat.lt_trichotomy x y with h | h | h
      · rw [if_pos h]; simp [h]
      · rw [if_neg (by omega), if_neg (by omega)]
        constructor
        · intro hc; cases hc
        · intro hc; omega
      · rw [if_neg (by omega), if_pos h]
        constructor
        · intro hc; cases hc
        · intro hc; omega
    · rw [cmpVal]
      constructor
      · intro hc
        have hxy : x = y := by
          by_cases h1 : x < y
          · rw [if_pos h1] at hc; cases hc
          · rw [if_neg h1] at hc
            by_cases h2 : y < x
            · rw [if_pos h2] at hc; cases hc
            · omega
        rw [hxy]
      · intro hc
        have hxy : x = y := ulidEncode_inj x y hx hy hc
        rw [if_neg (by omega), if_neg (by omega)]
    · rw [lexLt_ulidEncode y x hy hx, cmpVal]
      rcases Nat.lt_trichotomy x y with h | h | h
      · rw [if_pos h]
        constructor
        · intro hc; cases hc
        · intro hc; omega
      · rw [if_neg (by omega), if_neg (by omega)]
        constructor
        · intro hc; cases hc
        · intro hc; omega
      · rw [if_neg (by omega), if_pos h]
        simp [h]
  · intro f1 f2 ms1 ms2 st hms h48 hr hf1 hf2
    set r1 := if ms1 = st.lastTs then st.lastRand + 1 else f1 with hr1
    have hr1lt : r1 + 1 < 2 ^ 80 := by
      rw [hr1]
      by_cases h : ms1 = st.lastTs
      · rw [if_pos h]; omega
      · rw [if_neg h]; omega
    have hv1 : (mint f1 ms1 st).1 = ms1 * 2 ^ 80 + r1 := rfl
    have hst1 : (mint f1 ms1 st).2 = ⟨ms1, r1⟩ := rfl
    have hlt : (mint f1 ms1 st).1 < (mint f2 ms2 (mint f1 ms1 st).2).1 := by
      rw [hv1, hst1]
      by_cases h : ms2 = ms1
      · have : (mint f2 ms2 (⟨ms1, r1⟩ : GenState)).1 = ms2 * 2 ^ 80 + (r1 + 1) := by
          rw [mint]
          simp only [if_pos h]
        rw [this, h]
        omega
      · have : (mint f2 ms2 (⟨ms1, r1⟩ : GenState)).1 = ms2 * 2 ^ 80 + f2 := by
          rw [mint]
          simp only [if_neg h]
        rw [this]
        have hms' : ms1 < ms2 := by
          rcases Nat.lt_or_ge ms1 ms2 with h1 | h1
          · exact h1
          · exact absurd (Nat.le_antisymm hms h1).symm h
        calc ms1 * 2 ^ 80 + r1 < ms1 * 2 ^ 80 + 2 ^ 80 := by omega
          _ = (ms1 + 1) * 2 ^ 80 := by ring
          _ ≤ ms2 * 2 ^ 80 := Nat.mul_le_mul_right _ hms'
          _ ≤ ms2 * 2 ^ 80 + f2 := Nat.le_add_right _ _
    have hb1 : (mint f1 ms1 st).1 < 2 ^ 128 := by
      rw [hv1]
      have hms1 : ms1 < 2 ^ 48 := Nat.lt_of_le_of_lt hms h48
      calc ms1 * 2 ^ 80 + r1 < ms1 * 2 ^ 80 + 2 ^ 80 := by omega
        _ = (ms1 + 1) * 2 ^ 80 := by ring
        _ ≤ 2 ^ 48 * 2 ^ 80 := Nat.mul_le_mul_right _ (by omega)
        _ = 2 ^ 128 := by norm_num
    have hb2 : (mint f2 ms2 (mint f1 ms1 st).2).1 < 2 ^ 128 := by
      rw [hst1]
      have hr2 : (if ms2 = ms1 then r1 + 1 else f2) < 2 ^ 80 := by
        by_cases h : ms2 = ms1
        · rw [if_pos h]; omega
        · rw [if_neg h]; omega
      have hv2 : (mint f2 ms2 (⟨ms1, r1⟩ : GenState)).1 =
          ms2 * 2 ^ 80 + (if ms2 = ms1 then r1 + 1 else f2) := rfl
      rw [hv2]
      calc ms2 * 2 ^ 80 + (if ms2 = ms1 then r1 + 1 else f2)
          < ms2 * 2 ^ 80 + 2 ^ 80 := by omega
        _ = (ms2 + 1) * 2 ^ 80 := by ring
        _ ≤ 2 ^ 48 * 2 ^ 80 := Nat.mul_le_mul_right _ (by omega)
        _ = 2 ^ 128 := by norm_num
    refine ⟨-1, ?_, by norm_num⟩
    have := hcmp (ulidEncode (mint f1 ms1 st).1)
      (ulidEncode (mint f2 ms2 (mint f1 ms1 st).2).1) _ _
      (ulidParse_ulidEncode _ hb1) (ulidParse_ulidEncode _ hb2)
    rw [this, cmpVal, if_pos hlt]

/-- Concrete instance of C3: two mints at milliseconds 0 and 1 compare
at most 0. -/
theorem compare_spec_witness :
    ∃ c, Compare (ulidEncode (mint 5 0 ⟨0, 0⟩).1)
        (ulidEncode (mint 7 1 (mint 5 0 ⟨0, 0⟩).2).1) = .ok c ∧ c ≤ 0 :=
  compare_spec.2.2 5 7 0 1 ⟨0, 0⟩ (by norm_num) (by norm_num) (by norm_num)
    (by norm_num) (by norm_num)

/-! ## Claim C8 -/

theorem genRunAux_at_ms (fresh : Nat → Nat) (ms : Nat) :
    ∀ (rem i r : Nat),
      genRunAux fresh ms i ⟨ms, r⟩ rem =
        (List.range rem).map fun k => ms * 2 ^ 80 + (r + 1 + k) := by
  intro rem
  induction rem with
  | zero => intro i r; rfl
  | succ rem ih =>
    intro i r
    have hm : mint (fresh i) ms ⟨ms, r⟩ = (ms * 2 ^ 80 + (r + 1), ⟨ms, r + 1⟩) := by
      rw [mint]
      simp
    rw [genRunAux, hm]
    simp only
    rw [ih (i + 1) (r + 1), List.range_succ_eq_map, List.map_cons, List.map_map]
    congr 1
    apply List.map_congr_left
    intro k _
    simp only [Function.comp_apply]
    omega

theorem genRunAux_values (fresh : Nat → Nat) (ms : Nat) (st : GenState)
    (n : Nat) (hn : 0 < n) :
    genRunAux fresh ms 0 st n =
      (List.range n).map fun k =>
        ms * 2 ^ 80 + ((if ms = st.lastTs then st.lastRand + 1 else fresh 0) + k) := by
  rcases n with _ | m
  · omega
  · have hm : mint (fresh 0) ms st =
        (ms * 2 ^ 80 + (if ms = st.lastTs then st.lastRand + 1 else fresh 0),
          ⟨ms, if ms = st.lastTs then st.lastRand + 1 else fresh 0⟩) := rfl
    rw [genRunAux, hm]
    simp only
    rw [genRunAux_at_ms fresh ms m 1 _, List.range_succ_eq_map, List.map_cons,
      List.map_map]
    congr 1
    apply List.map_congr_left
    intro k _
    simp only [Function.comp_apply]
    omega

/-- C8: generating `n > 0` ULIDs within one millisecond from one monotonic
generator instance yields `n` strictly increasing text values with no
duplicates (under the no-overflow bounds that exclude the spec's
`OverflowError` case). -/
theorem generateBatch_monotonic (fresh : Nat → Nat) (ms : Nat) (st : GenState)
    (n : Nat) (hn : 0 < n) (hms : ms < 2 ^ 48)
    (hst : st.lastRand + n < 2 ^ 80) (hf : ∀ i, fresh i + n < 2 ^ 80) :
    (GenerateBatch fresh ms st (n : Int)).length = n
    ∧ (GenerateBatch fresh ms st (n : Int)).Pairwise (fun a b => lexLt a b = true)
    ∧ (GenerateBatch fresh ms st (n : Int)).Nodup := by
  have hnot : ¬ ((n : Int) ≤ 0) := by
    intro h
    omega
  have htn : (n : Int).toNat = n := by omega
  have hGB : GenerateBatch fresh ms st (n : Int) =
      ((List.range n).map fun k =>
        ms * 2 ^ 80 + ((if ms = st.lastTs then st.lastRand + 1 else fresh 0) + k)).map
        ulidEncode := by
    rw [GenerateBatch, if_neg hnot, htn, genRunAux_values fresh ms st n hn]
  have hr1 : (if ms = st.lastTs then st.lastRand + 1 else fresh 0) + n ≤ 2 ^ 80 := by
    by_cases h : ms = st.lastTs
    · rw [if_pos h]; omega
    · rw [if_neg h]; have := hf 0; omega
  have hbound : ∀ k < n,
      ms * 2 ^ 80 + ((if ms = st.lastTs then st.lastRand + 1 else fresh 0) + k)
        < 2 ^ 128 := by
    intro k hk
    calc ms * 2 ^ 80 + ((if ms = st.lastTs then st.lastRand + 1 else fresh 0) + k)
        < ms * 2 ^ 80 + 2 ^ 80 := by omega
      _ = (ms + 1) * 2 ^ 80 := by ring
      _ ≤ 2 ^ 48 * 2 ^ 80 := Nat.mul_le_mul_right _ (by omega)
      _ = 2 ^ 128 := by norm_num
  refine ⟨?_, ?_, ?_⟩
  · rw [hGB]
    simp
  · rw [hGB, List.map_map, List.pairwise_map]
    have hrange : (List.range n).Pairwise (· < ·) := List.pairwise_lt_range n
    apply List.Pairwise.imp_of_mem ?_ hrange
    intro k1 k2 h1 h2 hlt
    simp only [Function.comp_apply]
    rw [lexLt_ulidEncode _ _ (hbound k1 (List.mem_range.mp h1))
      (hbound k2 (List.mem_range.mp h2))]
    omega
  · rw [hGB, List.map_map, List.Nodup, List.pairwise_map]
    have hrange : (List.range n).Pairwise (· < ·) := List.pairwise_lt_range n
    apply List.Pairwise.imp_of_mem ?_ hrange
    intro k1 k2 h1 h2 hlt
    simp only [Function.comp_apply]
    intro heq
    have := ulidEncode_inj _ _ (hbound k1 (List.mem_range.mp h1))
      (hbound k2 (List.mem_range.mp h2)) heq
    omega

/-! ## Claim C5 -/

theorem getD_map_encode (l : List Nat) :
    ∀ k, k < l.length → (l.map ulidEncode).getD k [] = ulidEncode (l.getD k 0) := by
  induction l with
  | nil => intro k hk; simp at hk
  | cons x xs ih =>
    intro k hk
    cases k with
    | zero => rw [List.map_cons, List.getD_cons_zero, List.getD_cons_zero]
    | succ k =>
      rw [List.map_cons, List.getD_cons_succ, List.getD_cons_succ]
      exact ih k (by simpa using hk)

theorem genRangeAux_spec (fresh : Nat → Nat) (start dur n : Nat)
    (hf : ∀ j, fresh j + n < 2 ^ 80) :
    ∀ (rem i : Nat) (st : GenState), 0 < n → i + rem ≤ n →
      st.lastRand + rem < 2 ^ 80 →
      (genRangeAux fresh start dur n i st rem).length = rem
      ∧ ∀ k, k < rem →
          ∃ r, r < 2 ^ 80 ∧
            (genRangeAux fresh start dur n i st rem).getD k 0 =
              goRangeMs start dur n (i + k) * 2 ^ 80 + r := by
  intro rem
  induction rem with
  | zero =>
    intro i st _ _ _
    exact ⟨rfl, fun k hk => absurd hk (by omega)⟩
  | succ rem ih =>
    intro i st hn hin hrand
    have hri : (if goRangeMs start dur n i = st.lastTs
        then st.lastRand + 1 else fresh i) < 2 ^ 80 := by
      by_cases h : goRangeMs start dur n i = st.lastTs
      · rw [if_pos h]; omega
      · rw [if_neg h]; have := hf i; omega
    have hri' : (if goRangeMs start dur n i = st.lastTs
        then st.lastRand + 1 else fresh i) + rem < 2 ^ 80 := by
      by_cases h : goRangeMs start dur n i = st.lastTs
      · rw [if_pos h]; omega
      · rw [if_neg h]; have := hf i; omega
    have hm : mint (fresh i) (goRangeMs start dur n i) st =
        (goRangeMs start dur n i * 2 ^ 80 +
          (if goRangeMs start dur n i = st.lastTs
            then st.lastRand + 1 else fresh i),
          ⟨goRangeMs start dur n i,
            if goRangeMs start dur n i = st.lastTs
              then st.lastRand + 1 else fresh i⟩) := rfl
    obtain ⟨ihlen, ihget⟩ := ih (i + 1)
      ⟨goRangeMs start dur n i,
        if goRangeMs start dur n i = st.lastTs
          then st.lastRand + 1 else fresh i⟩
      hn (by omega) hri'
    rw [genRangeAux, hm]
    simp only
    refine ⟨by rw [List.length_cons, ihlen], ?_⟩
    intro k hk
    cases k with
    | zero =>
      refine ⟨if goRangeMs start dur n i = st.lastTs
        then st.lastRand + 1 else fresh i, hri, ?_⟩
      rw [List.getD_cons_zero]
      have heq : i + 0 = i := by omega
      rw [heq]
    | succ k =>
      obtain ⟨r, hr, hget⟩ := ihget k (by omega)
      refine ⟨r, hr, ?_⟩
      have heq : i + 1 + k = i + (k + 1) := by omega
      rw [List.getD_cons_succ, hget, heq]

theorem wrap64_of_lt (z : Int) (h0 : 0 ≤ z) (h1 : z < 2 ^ 63) : wrap64 z = z := by
  rw [wrap64]
  have h2 : (z + 2 ^ 63) % 2 ^ 64 = z + 2 ^ 63 :=
    Int.emod_eq_of_lt (by omega) (by omega)
  omega

/-- As long as the product `duration * i` fits in `int64` — which the
bound `(stop - start) * (n - 1) < 2 ^ 63` guarantees for every iteration —
the Go offset arithmetic of `GenerateRange` (saturating `Sub`, wrapping
multiplication, truncating division) coincides with exact arithmetic. -/
theorem goRangeMs_eq (start stop n k : Nat) (hn : 0 < n) (hk : k < n)
    (hw : (stop - start) * (n - 1) < 2 ^ 63) :
    goRangeMs start (goDuration start stop) n k =
      (start + (stop - start) * k / n) / 1000000 := by
  rcases Nat.eq_zero_or_pos k with hk0 | hkpos
  · subst hk0
    have hz : ((goDuration start stop : Nat) : Int) * ((0 : Nat) : Int) = 0 := by
      simp
    rw [goRangeMs, hz, show wrap64 0 = 0 by rw [wrap64]; norm_num, Int.zero_tdiv,
      add_zero, Int.toNat_ofNat]
    simp
  · have hdle : stop - start ≤ (stop - start) * (n - 1) := by
      have h1 : (stop - start) * 1 ≤ (stop - start) * (n - 1) :=
        Nat.mul_le_mul_left _ (by omega)
      omega
    have hsat : goDuration start stop = stop - start := by
      rw [goDuration]
      apply min_eq_left
      omega
    have hklt : (stop - start) * k < 2 ^ 63 := by
      have h2 : (stop - start) * k ≤ (stop - start) * (n - 1) :=
        Nat.mul_le_mul_left _ (by omega)
      omega
    have hcast : ((stop - start : Nat) : Int) * ((k : Nat) : Int)
        = (((stop - start) * k : Nat) : Int) := by push_cast; ring
    have hwlt : (((stop - start) * k : Nat) : Int) < 2 ^ 63 := by
      exact_mod_cast hklt
    rw [hsat, goRangeMs, hcast, wrap64_of_lt _ (Int.natCast_nonneg _) hwlt,
      ← Int.ofNat_tdiv, ← Nat.cast_add, Int.toNat_ofNat]

/-- C5 (amended): for `n > 0` and `start` strictly before `stop`, and as
long as each nanosecond product `(stop−start)·i` fits in `int64` (Go's
`Sub` saturates and the offset multiplication wraps beyond that),
`GenerateRange` returns exactly `n` ULIDs whose i-th element carries the
millisecond truncation of `start + (stop−start)·i/n` (truncating integer
division); when `start` is millisecond-aligned every carried timestamp
lies in `[start, stop)`; for `n ≤ 0` or `stop` before `start` the result
is empty.  (When `start = stop` the code still returns `n` values carrying
timestamp `start`, which cannot lie in `[start, start)`, and for
unaligned `start` the first value carries `trunc_ms(start) < start`; both
failures of the original claim are exhibited in the counterexample.) -/
theorem generateRange_spec (fresh : Nat → Nat) (st : GenState) (start stop : Nat)
    (n : Nat) (hn : 0 < n) (hlt : start < stop) (hstop : stop < 2 ^ 48 * 1000000)
    (hw : (stop - start) * (n - 1) < 2 ^ 63)
    (hst : st.lastRand + n < 2 ^ 80) (hf : ∀ j, fresh j + n < 2 ^ 80) :
    (GenerateRange fresh st start stop (n : Int)).length = n
    ∧ (∀ k, k < n →
        ExtractTimestamp ((GenerateRange fresh st start stop (n : Int)).getD k []) =
          .ok ((start + (stop - start) * k / n) / 1000000 * 1000000))
    ∧ (1000000 ∣ start → ∀ k, k < n →
        start ≤ (start + (stop - start) * k / n) / 1000000 * 1000000
        ∧ (start + (stop - start) * k / n) / 1000000 * 1000000 < stop)
    ∧ (∀ m : Int, m ≤ 0 → GenerateRange fresh st start stop m = [])
    ∧ (∀ a b : Nat, b < a → GenerateRange fresh st a b (n : Int) = []) := by
  have hnot : ¬ ((n : Int) ≤ 0 ∨ stop < start) := by
    intro h
    rcases h with h | h
    · omega
    · omega
  have htn : (n : Int).toNat = n := by omega
  have hGR : GenerateRange fresh st start stop (n : Int) =
      (genRangeAux fresh start (goDuration start stop) n 0 st n).map ulidEncode := by
    rw [GenerateRange, if_neg hnot, htn]
  obtain ⟨hlen, hget⟩ :=
    genRangeAux_spec fresh start (goDuration start stop) n hf n 0 st hn (by omega)
      (by omega)
  have hoff : ∀ k, k < n → start + (stop - start) * k / n ≤ stop := by
    intro k hk
    have : (stop - start) * k / n ≤ stop - start := by
      by_cases hd : stop - start = 0
      · rw [hd]; simp
      · apply Nat.le_of_lt
        rw [Nat.div_lt_iff_lt_mul hn]
        calc (stop - start) * k ≤ (stop - start) * (n - 1) :=
              Nat.mul_le_mul_left _ (by omega)
          _ < (stop - start) * n := mul_lt_mul_of_pos_left (by omega) (by omega)
    omega
  have hvals : ∀ k, k < n →
      ExtractTimestamp ((GenerateRange fresh st start stop (n : Int)).getD k []) =
        .ok ((start + (stop - start) * k / n) / 1000000 * 1000000) := by
    intro k hk
    obtain ⟨r, hr, hv⟩ := hget k hk
    rw [hGR, getD_map_encode _ k (by rw [hlen]; exact hk)]
    have hzero : 0 + k = k := by omega
    rw [hzero] at hv
    rw [hv, goRangeMs_eq start stop n k hn hk hw]
    have hms : (start + (stop - start) * k / n) / 1000000 < 2 ^ 48 := by
      have h1 := hoff k hk
      have h2 : start + (stop - start) * k / n < 2 ^ 48 * 1000000 := by omega
      exact Nat.div_lt_of_lt_mul
        (by rw [Nat.mul_comm (2 ^ 48) 1000000] at h2; exact h2)
    have hb : (start + (stop - start) * k / n) / 1000000 * 2 ^ 80 + r
        < 2 ^ 128 := by
      calc (start + (stop - start) * k / n) / 1000000 * 2 ^ 80 + r
          < (start + (stop - start) * k / n) / 1000000 * 2 ^ 80 + 2 ^ 80 := by
            omega
        _ = ((start + (stop - start) * k / n) / 1000000 + 1) * 2 ^ 80 := by
            ring
        _ ≤ 2 ^ 48 * 2 ^ 80 := Nat.mul_le_mul_right _ (by omega)
        _ = 2 ^ 128 := by norm_num
    rw [extractTimestamp_ok _ _ (ulidParse_ulidEncode _ hb)]
    have hdiv : ((start + (stop - start) * k / n) / 1000000 * 2 ^ 80 + r)
        / 2 ^ 80 = (start + (stop - start) * k / n) / 1000000 := by
      rw [Nat.mul_comm ((start + (stop - start) * k / n) / 1000000) (2 ^ 80),
        Nat.mul_add_div (by norm_num : (0:Nat) < 2 ^ 80), Nat.div_eq_of_lt hr,
        Nat.add_zero]
    rw [hdiv]
  refine ⟨by rw [hGR]; simp [hlen], hvals, ?_, ?_, ?_⟩
  · intro halign k hk
    constructor
    · obtain ⟨q, hq⟩ := halign
      have h1 : q ≤ (start + (stop - start) * k / n) / 1000000 := by
        have : start ≤ start + (stop - start) * k / n := Nat.le_add_right _ _
        calc q = start / 1000000 := by rw [hq]; rw [Nat.mul_div_cancel_left _ (by norm_num : (0:Nat) < 1000000)]
          _ ≤ (start + (stop - start) * k / n) / 1000000 := Nat.div_le_div_right this
      calc start = 1000000 * q := hq
        _ ≤ 1000000 * ((start + (stop - start) * k / n) / 1000000) :=
            Nat.mul_le_mul_left _ h1
        _ = (start + (stop - start) * k / n) / 1000000 * 1000000 := by ring
    · have h2 : (start + (stop - start) * k / n) / 1000000 * 1000000
          ≤ start + (stop - start) * k / n := Nat.div_mul_le_self _ _
      have h3 : (stop - start) * k / n < stop - start := by
        rw [Nat.div_lt_iff_lt_mul hn]
        calc (stop - start) * k ≤ (stop - start) * (n - 1) :=
              Nat.mul_le_mul_left _ (by omega)
          _ < (stop - start) * n := mul_lt_mul_of_pos_left (by omega) (by omega)
      omega
  · intro m hm
    rw [GenerateRange, if_pos (Or.inl hm)]
  · intro a b hab
    rw [GenerateRange, if_pos (Or.inr hab)]

/-- Concrete instance of C5: two ULIDs over the range `[0ms, 3ms)`. -/
theorem generateRange_spec_witness :
    (GenerateRange (fun _ => 0) ⟨1, 0⟩ 0 3000000 ((2 : Nat) : Int)).length = 2 :=
  (generateRange_spec (fun _ => 0) ⟨1, 0⟩ 0 3000000 2 (by norm_num) (by norm_num)
    (by norm_num) (by norm_num) (by norm_num) fun j => by norm_num).1

/-- C5 as stated fails twice.  First, at `start = stop`: the guard only
rejects `stop` strictly before `start`, so `GenerateRange(t, t, 1)`
returns one ULID carrying timestamp `t`, which does not lie in the empty
half-open interval `[t, t)`.  Second, at a `start` that is not
millisecond-aligned: with `start` = 0.5ms and `stop` = 2ms, the first
value carries the millisecond-truncated timestamp 0 < `start`, outside
`[start, stop)`. -/
theorem generateRange_counterexample :
    (GenerateRange (fun _ => 0) ⟨1, 0⟩ 0 0 (1 : Int) = [ulidEncode 0]
      ∧ ExtractTimestamp (ulidEncode 0) = .ok 0
      ∧ ¬ ∀ s ∈ GenerateRange (fun _ => 0) ⟨1, 0⟩ 0 0 (1 : Int),
          ∃ ts, ExtractTimestamp s = .ok ts ∧ 0 ≤ ts ∧ ts < 0)
    ∧ (GenerateRange (fun _ => 0) ⟨1, 0⟩ 500000 2000000 (1 : Int) = [ulidEncode 0]
      ∧ ¬ ∀ s ∈ GenerateRange (fun _ => 0) ⟨1, 0⟩ 500000 2000000 (1 : Int),
          ∃ ts, ExtractTimestamp s = .ok ts ∧ 500000 ≤ ts ∧ ts < 2000000) := by
  refine ⟨⟨rfl, rfl, ?_⟩, rfl, ?_⟩
  · intro h
    obtain ⟨ts, hts, _, hlt⟩ := h (ulidEncode 0)
      (by rw [(rfl : GenerateRange (fun _ => 0) ⟨1, 0⟩ 0 0 (1 : Int) = [ulidEncode 0])]
          exact List.mem_singleton_self _)
    have h0 : ExtractTimestamp (ulidEncode 0) = .ok 0 := rfl
    rw [h0] at hts
    have hts0 : (0 : Nat) = ts := by injection hts
    omega
  · intro h
    obtain ⟨ts, hts, hge, _⟩ := h (ulidEncode 0)
      (by rw [(rfl : GenerateRange (fun _ => 0) ⟨1, 0⟩ 500000 2000000 (1 : Int) =
            [ulidEncode 0])]
          exact List.mem_singleton_self _)
    have h0 : ExtractTimestamp (ulidEncode 0) = .ok 0 := rfl
    rw [h0] at hts
    have hts0 : (0 : Nat) = ts := by injection hts
    omega

/-! ## Claim C9 -/

/-- The 128-bit value of a parsed ULID (0 for invalid input; only used on
valid input). -/
def pval (s : List Char) : Nat := (ulidParse s).getD 0

theorem parse_pval (s : List Char) (h : IsIdValid s = true) :
    ulidParse s = some (pval s) := by
  rw [IsIdValid] at h
  rcases hp : ulidParse s with _ | n
  · rw [hp] at h; cases h
  · rw [pval, hp]; rfl

theorem compareLtB_iff (a b : List Char) (ha : IsIdValid a = true)
    (hb : IsIdValid b = true) : (compareLtB a b = true ↔ pval a < pval b) := by
  rw [compareLtB, compare_ok a b (pval a) (pval b) (parse_pval a ha) (parse_pval b hb)]
  simp only [cmpVal]
  by_cases h : pval a < pval b
  · simp [h]
  · by_cases h2 : pval b < pval a
    · simp [h, h2]
    · simp [h, h2]

theorem insertAsc_perm (x : List Char) (l : List (List Char)) :
    List.Perm (insertAsc x l) (x :: l) := by
  induction l with
  | nil => exact List.Perm.refl _
  | cons y ys ih =>
    rw [insertAsc]
    by_cases h : compareLtB x y = true
    · rw [if_pos h]
    · rw [if_neg h]
      have h1 : List.Perm (y :: insertAsc x ys) (y :: x :: ys) := List.Perm.cons y ih
      exact h1.trans (List.Perm.swap x y ys)

theorem sortAsc_perm (l : List (List Char)) : List.Perm (sortAsc l) l := by
  induction l with
  | nil => exact List.Perm.refl _
  | cons x xs ih =>
    have h1 : List.Perm (insertAsc x (sortAsc xs)) (x :: sortAsc xs) :=
      insertAsc_perm x (sortAsc xs)
    exact h1.trans (List.Perm.cons x ih)

theorem insertAsc_sorted (x : List Char) (l : List (List Char))
    (hvx : IsIdValid x = true) (hvl : ∀ s ∈ l, IsIdValid s = true)
    (hl : l.Pairwise fun a b => pval a ≤ pval b) :
    (insertAsc x l).Pairwise fun a b => pval a ≤ pval b := by
  induction l with
  | nil => simp [insertAsc]
  | cons y ys ih =>
    have hvy : IsIdValid y = true := hvl y (by simp)
    have hvys : ∀ s ∈ ys, IsIdValid s = true := fun s hs => hvl s (by simp [hs])
    obtain ⟨hyz, hys⟩ := List.pairwise_cons.mp hl
    rw [insertAsc]
    by_cases h : compareLtB x y = true
    · rw [if_pos h]
      have hxy : pval x < pval y := (compareLtB_iff x y hvx hvy).mp h
      refine List.Pairwise.cons ?_ hl
      intro z hz
      rcases List.mem_cons.mp hz with hz | hz
      · subst hz; omega
      · have := hyz z hz; omega
    · rw [if_neg h]
      have hyx : pval y ≤ pval x := by
        have hnlt : ¬ pval x < pval y := fun hc =>
          h ((compareLtB_iff x y hvx hvy).mpr hc)
        omega
      refine List.Pairwise.cons ?_ (ih hvys hys)
      intro z hz
      have hmem : z ∈ x :: ys := (insertAsc_perm x ys).mem_iff.mp hz
      rcases List.mem_cons.mp hmem with hz' | hz'
      · subst hz'; exact hyx
      · exact hyz z hz'

theorem sortAsc_sorted (l : List (List Char)) (hv : ∀ s ∈ l, IsIdValid s = true) :
    (sortAsc l).Pairwise fun a b => pval a ≤ pval b := by
  induction l with
  | nil => simp [sortAsc]
  | cons x xs ih =>
    refine insertAsc_sorted x (sortAsc xs) (hv x (by simp)) ?_
      (ih fun s hs => hv s (by simp [hs]))
    intro s hs
    exact hv s (by simp [(sortAsc_perm xs).mem_iff.mp hs])

/-- C9 (amended): on a list of valid ULIDs, `SortChronologically` returns
a new list with the same elements sorted ascending by the full 128-bit
value — and hence with timestamps ascending — and
`SortChronologicallyReverse` returns its reverse.  (The sort is by the
`Compare` order, which breaks equal-timestamp ties by randomness rather
than by input position, so it is not a *stable* sort by timestamp; see the
counterexample.) -/
theorem sortChronologically_spec (ids : List (List Char))
    (hv : ∀ s ∈ ids, IsIdValid s = true) :
    List.Perm (SortChronologically ids) ids
    ∧ (SortChronologically ids).Pairwise (fun a b => pval a ≤ pval b)
    ∧ (SortChronologically ids).Pairwise
        (fun a b => pval a / 2 ^ 80 ≤ pval b / 2 ^ 80)
    ∧ SortChronologicallyReverse ids = (SortChronologically ids).reverse := by
  have hsorted : (SortChronologically ids).Pairwise fun a b => pval a ≤ pval b := by
    rw [SortChronologically]
    by_cases hlen : ids.length ≤ 1
    · rw [if_pos hlen]
      cases ids with
      | nil => simp
      | cons a l =>
        cases l with
        | nil => simp
        | cons b l2 => simp at hlen
    · rw [if_neg hlen]
      exact sortAsc_sorted ids hv
  refine ⟨?_, hsorted, ?_, rfl⟩
  · rw [SortChronologically]
    by_cases hlen : ids.length ≤ 1
    · rw [if_pos hlen]
    · rw [if_neg hlen]
      exact sortAsc_perm ids
  · exact hsorted.imp fun h => Nat.div_le_div_right h

/-- Concrete instance of C9: sorting two valid ULIDs is a permutation. -/
theorem sortChronologically_spec_witness :
    List.Perm (SortChronologically [ulidEncode 1, ulidEncode 0])
      [ulidEncode 1, ulidEncode 0] :=
  (sortChronologically_spec [ulidEncode 1, ulidEncode 0] (by decide)).1

/-- C9 as stated fails: the comparator orders by the full ULID value, so
two valid ULIDs with the *same* timestamp are reordered by their
randomness component — a stable sort by extracted timestamp would have
left this two-element list untouched. -/
theorem sortChronologically_counterexample :
    ExtractTimestamp (ulidEncode 1) = .ok 0
    ∧ ExtractTimestamp (ulidEncode 0) = .ok 0
    ∧ IsIdValid (ulidEncode 1) = true
    ∧ IsIdValid (ulidEncode 0) = true
    ∧ SortChronologically [ulidEncode 1, ulidEncode 0] =
        [ulidEncode 0, ulidEncode 1]
    ∧ [ulidEncode 0, ulidEncode 1] ≠ [ulidEncode 1, ulidEncode 0] := by
  refine ⟨rfl, rfl, rfl, rfl, rfl, ?_⟩
  decide

/-- Concrete instance of C8: three ULIDs minted inside millisecond 1. -/
theorem generateBatch_monotonic_witness :
    (GenerateBatch (fun _ => 5) 1 ⟨0, 0⟩ ((3 : Nat) : Int)).length = 3
    ∧ (GenerateBatch (fun _ => 5) 1 ⟨0, 0⟩ ((3 : Nat) : Int)).Nodup :=
  ⟨(generateBatch_monotonic (fun _ => 5) 1 ⟨0, 0⟩ 3 (by norm_num) (by norm_num)
      (by norm_num) fun i => by norm_num).1,
    (generateBatch_monotonic (fun _ => 5) 1 ⟨0, 0⟩ 3 (by norm_num) (by norm_num)
      (by norm_num) fun i => by norm_num).2.2⟩

end BoldMindsId
